import Mathlib

/-!
Verification of the Merkle-tree membership-proof core of the `pdtt` backend.

The embedding follows `src/backend/main.py` (class `MerkleTree`, function
`_hash_address`, and the pure part of the claim-details endpoint) and
`src/backend/verify_merkle.py` (the duplicated `MerkleTree` class).
Byte strings are lists of naturals below 256; `hashlib.sha3_256` is embedded
as a full executable SHA3-256 over such lists; fallible operations
(`bytes.fromhex`, `list.index`, indexing that may raise) return `Option`.
-/

namespace PDTT

/-- A byte string, as Python `bytes`: a list of naturals, each below 256. -/
abbrev Bytes := List Nat

/-! ## SHA3-256 (`hashlib.sha3_256`) -/

/-- 64-bit left rotation on naturals reduced modulo `2 ^ 64`. -/
def rotl64 (x k : Nat) : Nat :=
  ((x <<< (k % 64)) % 2 ^ 64) ||| (x >>> (64 - k % 64))

/-- Bitwise complement within 64 bits. -/
def not64 (x : Nat) : Nat := x ^^^ (2 ^ 64 - 1)

/-- The 24 Keccak round constants, in decimal (hex: 0000000000000001,
0000000000008082, 800000000000808a, 8000000080008000, 000000000000808b,
0000000080000001, 8000000080008081, 8000000000008009, 000000000000008a,
0000000000000088, 0000000080008009, 000000008000000a, 000000008000808b,
800000000000008b, 8000000000008089, 8000000000008003, 8000000000008002,
8000000000000080, 000000000000800a, 800000008000000a, 8000000080008081,
8000000000008080, 0000000080000001, 8000000080008008). -/
def keccakRC : List Nat :=
  [1, 32898, 9223372036854808714,
   9223372039002292224, 32907, 2147483649,
   9223372039002292353, 9223372036854808585, 138,
   136, 2147516425, 2147483658,
   2147516555, 9223372036854775947, 9223372036854808713,
   9223372036854808579, 9223372036854808578, 9223372036854775936,
   32778, 9223372039002259466, 9223372039002292353,
   9223372036854808704, 2147483649, 9223372039002292232]

/-- Keccak rotation offsets, row `y` by row, flattened to lane order
`x + 5 * y`. -/
def rhoOffsets : List Nat :=
  List.join [[0, 1, 62, 28, 27],
    [36, 44, 6, 55, 20],
    [3, 10, 43, 25, 39],
    [41, 45, 15, 21, 8],
    [18, 2, 61, 56, 14]]

/-- Keccak θ step on a 25-lane state. -/
def theta (A : List Nat) : List Nat :=
  let C := (List.range 5).map fun x =>
    A.getD x 0 ^^^ A.getD (x + 5) 0 ^^^ A.getD (x + 10) 0 ^^^
      A.getD (x + 15) 0 ^^^ A.getD (x + 20) 0
  let D := (List.range 5).map fun x =>
    C.getD ((x + 4) % 5) 0 ^^^ rotl64 (C.getD ((x + 1) % 5) 0) 1
  (List.range 25).map fun i => A.getD i 0 ^^^ D.getD (i % 5) 0

/-- Keccak ρ and π steps: lane `(x, y)` rotates by its offset and moves to
`(y, 2x + 3y mod 5)`; the source lane of target `(X, Y)` is `(X + 3Y mod 5, X)`. -/
def rhoPi (A : List Nat) : List Nat :=
  (List.range 25).map fun j =>
    let x := (j % 5 + 3 * (j / 5)) % 5
    let y := j % 5
    rotl64 (A.getD (x + 5 * y) 0) (rhoOffsets.getD (x + 5 * y) 0)

/-- Keccak χ step. -/
def chi (A : List Nat) : List Nat :=
  (List.range 25).map fun j =>
    let x := j % 5
    let y := j / 5
    A.getD j 0 ^^^ (not64 (A.getD ((x + 1) % 5 + 5 * y) 0) &&& A.getD ((x + 2) % 5 + 5 * y) 0)

/-- One Keccak round: θ, ρπ, χ, then ι with round constant `rc`. -/
def keccakRound (A : List Nat) (rc : Nat) : List Nat :=
  let B := chi (rhoPi (theta A))
  B.set 0 (B.getD 0 0 ^^^ rc)

/-- The Keccak-f[1600] permutation: 24 rounds. -/
def keccakF (A : List Nat) : List Nat :=
  keccakRC.foldl keccakRound A

/-- Interpret up to eight bytes as a little-endian 64-bit lane. -/
def bytesToLane (bs : Bytes) : Nat :=
  bs.foldr (fun b acc => b + 256 * acc) 0

/-- XOR one 136-byte rate block into the state and permute. -/
def absorbBlock (A : List Nat) (block : Bytes) : List Nat :=
  keccakF ((List.range 25).map fun i =>
    A.getD i 0 ^^^ bytesToLane ((block.drop (8 * i)).take 8))

/-- Absorb `n` rate blocks of the padded message. -/
def absorbBlocks : Nat → List Nat → Bytes → List Nat
  | 0, A, _ => A
  | n + 1, A, msg => absorbBlocks n (absorbBlock A (msg.take 136)) (msg.drop 136)

/-- SHA3 padding: domain byte `0x06`, zero fill, final bit `0x80`, to a
multiple of the 136-byte rate. -/
def sha3pad (msg : Bytes) : Bytes :=
  let padLen := 136 - msg.length % 136
  if padLen = 1 then msg ++ [0x86]
  else msg ++ [0x06] ++ List.replicate (padLen - 2) 0 ++ [0x80]

/-- Read `n` output bytes from the state, little-endian within each lane. -/
def squeezeBytes (A : List Nat) (n : Nat) : Bytes :=
  (List.range n).map fun k => (A.getD (k / 8) 0 >>> (8 * (k % 8))) % 256

/-- `hashlib.sha3_256(msg).digest()`: the 32-byte SHA3-256 digest. -/
def sha3_256 (msg : Bytes) : Bytes :=
  let padded := sha3pad msg
  squeezeBytes (absorbBlocks (padded.length / 136) (List.replicate 25 0) padded) 32

/-- A SHA3-256 digest always has exactly 32 bytes. -/
theorem sha3_256_length (msg : Bytes) : (sha3_256 msg).length = 32 := by
  simp [sha3_256, squeezeBytes]

/-- A SHA3-256 digest is never the empty byte string. -/
theorem sha3_256_ne_nil (msg : Bytes) : sha3_256 msg ≠ [] := by
  intro h
  have := sha3_256_length msg
  rw [h] at this
  simp at this

/-! ## Python byte-string comparison and the sorted-pair hashing rule -/

/-- Python `bytes` strict comparison `a < b`: lexicographic by byte value,
a strict prefix is smaller. -/
def pyLt : Bytes → Bytes → Bool
  | [], [] => false
  | [], _ :: _ => true
  | _ :: _, [] => false
  | a :: s, b :: t => if a < b then true else if b < a then false else pyLt s t

/-- `sorted([x, y])` for two byte strings: Python's stable ascending sort of a
two-element list. -/
def sorted2 (x y : Bytes) : Bytes × Bytes :=
  if pyLt y x then (y, x) else (x, y)

/-- The pairing rule of `MerkleTree._next_layer`: sort the two values by byte
representation, concatenate, hash with SHA3-256. -/
def hashPair (x y : Bytes) : Bytes :=
  sha3_256 ((sorted2 x y).1 ++ (sorted2 x y).2)

theorem pyLt_asymm : ∀ x y : Bytes, pyLt x y = true → pyLt y x = false
  | [], [], h => by simp [pyLt] at h
  | [], _ :: _, _ => by simp [pyLt]
  | _ :: _, [], h => by simp [pyLt] at h
  | a :: s, b :: t, h => by
    by_cases hab : a < b
    · simp only [pyLt]
      rw [if_neg (Nat.lt_asymm hab), if_pos hab]
    · by_cases hba : b < a
      · simp [pyLt, hab, hba] at h
      · have hrec := pyLt_asymm s t
        simp [pyLt, hab, hba] at h ⊢
        exact hrec h

theorem pyLt_antisymm : ∀ x y : Bytes, pyLt x y = false → pyLt y x = false → x = y
  | [], [], _, _ => rfl
  | [], _ :: _, h, _ => by simp [pyLt] at h
  | _ :: _, [], _, h => by simp [pyLt] at h
  | a :: s, b :: t, h1, h2 => by
    by_cases hab : a < b
    · simp [pyLt, hab] at h1
    · by_cases hba : b < a
      · simp [pyLt, hba] at h2
      · have hab' : a = b := Nat.le_antisymm (Nat.le_of_not_lt hba) (Nat.le_of_not_lt hab)
        subst hab'
        simp [pyLt, hab, hba] at h1 h2
        rw [pyLt_antisymm s t h1 h2]

/-- Two-element sorting does not depend on the order of its arguments. -/
theorem sorted2_comm (x y : Bytes) : sorted2 x y = sorted2 y x := by
  unfold sorted2
  by_cases hyx : pyLt y x = true
  · simp [hyx, pyLt_asymm y x hyx]
  · by_cases hxy : pyLt x y = true
    · simp [hxy, hyx]
    · have := pyLt_antisymm x y (Bool.not_eq_true _ ▸ hxy) (Bool.not_eq_true _ ▸ hyx)
      subst this
      rfl

/-- Sort-before-hash: swapping the two children never changes the parent. -/
theorem hashPair_comm (x y : Bytes) : hashPair x y = hashPair y x := by
  unfold hashPair
  rw [sorted2_comm]

/-! ## `MerkleTree` from `src/backend/main.py` -/

/-- One step of `MerkleTree._next_layer`: hash complete adjacent pairs with
the sorted-pair rule, carry a final unpaired element forward unchanged. -/
def nextLayer : List Bytes → List Bytes
  | a :: b :: rest => hashPair a b :: nextLayer rest
  | [a] => [a]
  | [] => []

theorem nextLayer_length : ∀ l : List Bytes, (nextLayer l).length = (l.length + 1) / 2
  | [] => by simp [nextLayer]
  | [_] => by simp [nextLayer]
  | _ :: _ :: rest => by
    simp only [nextLayer, List.length_cons, nextLayer_length rest]
    omega

/-- The layer list built by `MerkleTree.__init__`: start from the leaves and
apply `_next_layer` while the top layer has more than one element. -/
def buildLayers (layer : List Bytes) : List (List Bytes) :=
  if h : 1 < layer.length then layer :: buildLayers (nextLayer layer) else [layer]
termination_by layer.length
decreasing_by
  rw [nextLayer_length]
  omega

/-- The state of a constructed `MerkleTree`: its leaves and its layer list. -/
structure MerkleTree where
  leaves : List Bytes
  layers : List (List Bytes)

/-- `MerkleTree(leaves)`: store the leaves and build the layers. -/
def mkMerkleTree (leaves : List Bytes) : MerkleTree :=
  ⟨leaves, buildLayers leaves⟩

/-- `MerkleTree.get_root`: `self.layers[-1][0] if self.layers else b''`, with
`none` standing for the `IndexError` raised when the top layer is empty. -/
def MerkleTree.get_root (t : MerkleTree) : Option Bytes :=
  match t.layers.getLast? with
  | none => some []
  | some top => top[0]?

/-- Python `list.index`: the first position holding the value, `none` for the
`ValueError` raised when the value is absent. -/
def pyIndex (x : Bytes) : List Bytes → Option Nat
  | [] => none
  | y :: ys => if y = x then some 0 else (pyIndex x ys).map (· + 1)

/-- The sibling-collecting loop of `MerkleTree.get_proof` over `layers[:-1]`:
at an even index take the right sibling when it exists, at an odd index take
the left sibling, then halve the index. -/
def proofLoop : List (List Bytes) → Nat → List Bytes
  | [], _ => []
  | layer :: rest, i =>
    if i % 2 = 0 then
      if i + 1 < layer.length then layer.getD (i + 1) [] :: proofLoop rest (i / 2)
      else proofLoop rest (i / 2)
    else layer.getD (i - 1) [] :: proofLoop rest (i / 2)

/-- `MerkleTree.get_proof`: find the leaf in `self.leaves`, returning `[]` on
`ValueError`, then collect siblings through all layers below the root. -/
def MerkleTree.get_proof (t : MerkleTree) (leaf : Bytes) : List Bytes :=
  match pyIndex leaf t.leaves with
  | none => []
  | some i => proofLoop t.layers.dropLast i

/-! ## Layer-indexing lemmas -/

theorem nextLayer_getD_pair : ∀ (l : List Bytes) (i : Nat), i % 2 = 0 → i + 1 < l.length →
    (nextLayer l).getD (i / 2) [] = hashPair (l.getD i []) (l.getD (i + 1) [])
  | [], _, _, h2 => by simp at h2
  | [_], _, _, h2 => by simp at h2
  | _ :: _ :: _, 0, _, _ => by simp [nextLayer]
  | _ :: _ :: _, 1, h1, _ => by omega
  | a :: b :: rest, k + 2, h1, h2 => by
    have hdiv : (k + 2) / 2 = k / 2 + 1 := by omega
    have h2' : k + 1 < rest.length := by
      simp only [List.length_cons] at h2
      omega
    simp only [nextLayer, hdiv, List.getD_cons_succ]
    exact nextLayer_getD_pair rest k (by omega) h2'

theorem nextLayer_getD_carry : ∀ (l : List Bytes) (i : Nat), i % 2 = 0 → i + 1 = l.length →
    (nextLayer l).getD (i / 2) [] = l.getD i []
  | [], _, _, h2 => by simp at h2
  | [_], 0, _, _ => by simp [nextLayer]
  | [_], _ + 1, _, h2 => by simp at h2
  | _ :: _ :: rest, 0, _, h2 => by simp at h2
  | _ :: _ :: rest, 1, h1, _ => by omega
  | a :: b :: rest, k + 2, h1, h2 => by
    have hdiv : (k + 2) / 2 = k / 2 + 1 := by omega
    have h2' : k + 1 = rest.length := by
      simp only [List.length_cons] at h2
      omega
    simp only [nextLayer, hdiv, List.getD_cons_succ]
    exact nextLayer_getD_carry rest k (by omega) h2'

theorem nextLayer_getD_odd : ∀ (l : List Bytes) (i : Nat), i % 2 = 1 → i < l.length →
    (nextLayer l).getD (i / 2) [] = hashPair (l.getD (i - 1) []) (l.getD i [])
  | [], _, _, h2 => by simp at h2
  | [_], i, h1, h2 => by simp at h2; omega
  | _ :: _ :: _, 0, h1, _ => by omega
  | _ :: _ :: _, 1, _, _ => by simp [nextLayer]
  | a :: b :: rest, k + 2, h1, h2 => by
    obtain ⟨m, rfl⟩ : ∃ m, k = m + 1 := ⟨k - 1, by omega⟩
    have hdiv : (m + 3) / 2 = (m + 1) / 2 + 1 := by omega
    have hsub : m + 3 - 1 = m + 1 + 1 := by omega
    have h2' : m + 1 < rest.length := by
      simp only [List.length_cons] at h2
      omega
    simp only [nextLayer, hdiv, hsub, List.getD_cons_succ]
    have := nextLayer_getD_odd rest (m + 1) (by omega) h2'
    simpa using this

theorem buildLayers_ne_nil (L : List Bytes) : buildLayers L ≠ [] := by
  rw [buildLayers.eq_def]
  by_cases h : 1 < L.length <;> simp [h]

/-- The central invariant behind proof round-trips: for any in-range index,
folding the collected siblings over the element of layer 0 at that index with
the sorted-pair hash recomputes the value at the root position. -/
theorem buildLayers_fold (L : List Bytes) (i : Nat) (hi : i < L.length) :
    ∃ top, (buildLayers L).getLast? = some top ∧
      top[0]? = some (List.foldl hashPair (L.getD i [])
        (proofLoop (buildLayers L).dropLast i)) := by
  rw [buildLayers.eq_def]
  by_cases h : 1 < L.length
  · simp only [dif_pos h]
    have hrec : i / 2 < (nextLayer L).length := by
      rw [nextLayer_length]
      omega
    obtain ⟨top, htop, hfold⟩ := buildLayers_fold (nextLayer L) (i / 2) hrec
    refine ⟨top, ?_, ?_⟩
    · rw [List.getLast?_cons, htop]
      simp
    · obtain ⟨l0, ls, hls⟩ : ∃ l0 ls, buildLayers (nextLayer L) = l0 :: ls :=
        match hbl : buildLayers (nextLayer L) with
        | [] => absurd hbl (buildLayers_ne_nil _)
        | l0 :: ls => ⟨l0, ls, rfl⟩
      rw [hls] at hfold htop
      rw [hls, List.dropLast_cons₂, proofLoop]
      by_cases hpar : i % 2 = 0
      · by_cases hsib : i + 1 < L.length
        · rw [if_pos hpar, if_pos hsib, List.foldl_cons,
            ← nextLayer_getD_pair L i hpar hsib]
          exact hfold
        · have hlast : i + 1 = L.length := by omega
          rw [if_pos hpar, if_neg hsib, ← nextLayer_getD_carry L i hpar hlast]
          exact hfold
      · have hodd : i % 2 = 1 := by omega
        rw [if_neg hpar, List.foldl_cons, hashPair_comm,
          ← nextLayer_getD_odd L i hodd hi]
        exact hfold
  · have hlen : L.length = 1 := by omega
    have hi0 : i = 0 := by omega
    obtain ⟨a, rfl⟩ : ∃ a, L = [a] :=
      match L, hlen with
      | [a], _ => ⟨a, rfl⟩
    simp [dif_neg h, hi0, proofLoop]
termination_by L.length
decreasing_by
  rw [nextLayer_length]
  omega

/-! ## `list.index` lemmas -/

theorem pyIndex_lt_length : ∀ (l : List Bytes) (x : Bytes) (i : Nat),
    pyIndex x l = some i → i < l.length
  | [], x, i, h => by simp [pyIndex] at h
  | y :: ys, x, i, h => by
    by_cases hy : y = x
    · simp [pyIndex, hy] at h
      simp only [List.length_cons]
      omega
    · simp only [pyIndex, if_neg hy, Option.map_eq_some'] at h
      obtain ⟨j, hj, rfl⟩ := h
      have := pyIndex_lt_length ys x j hj
      simp only [List.length_cons]
      omega

theorem pyIndex_getD : ∀ (l : List Bytes) (x : Bytes) (i : Nat),
    pyIndex x l = some i → l.getD i [] = x
  | [], x, i, h => by simp [pyIndex] at h
  | y :: ys, x, i, h => by
    by_cases hy : y = x
    · simp [pyIndex, hy] at h
      simp [← h, hy]
    · simp only [pyIndex, if_neg hy, Option.map_eq_some'] at h
      obtain ⟨j, hj, rfl⟩ := h
      simpa using pyIndex_getD ys x j hj

theorem pyIndex_eq_none : ∀ (l : List Bytes) (x : Bytes), x ∉ l → pyIndex x l = none
  | [], _, _ => rfl
  | y :: ys, x, h => by
    have hy : y ≠ x := fun hyx => h (hyx ▸ List.mem_cons_self y ys)
    have hys : x ∉ ys := fun hx => h (List.mem_cons_of_mem y hx)
    simp [pyIndex, hy, pyIndex_eq_none ys x hys]

/-! ## The proof verifier, absent from the source -/

/-- Modelled from the spec: the recomputation loop of the §4.4 proof verifier,
which the source does not contain. Starting from the claimed leaf, consume the
siblings in order: sort the current value and the sibling ascending by byte
value, concatenate, hash with SHA3-256; the index is halved at each step and
does not influence the concatenation order. -/
def processProof : Bytes → Nat → List Bytes → Bytes
  | cur, _, [] => cur
  | cur, idx, sib :: rest => processProof (hashPair cur sib) (idx / 2) rest

/-- Modelled from the spec: the §4.4 verifier, absent from the source —
recompute a candidate root from leaf, index and proof, and compare it with the
committed root. -/
def verify (leaf : Bytes) (index : Nat) (proof : List Bytes) (root : Bytes) : Bool :=
  processProof leaf index proof == root

theorem processProof_eq_foldl : ∀ (proof : List Bytes) (cur : Bytes) (idx : Nat),
    processProof cur idx proof = List.foldl hashPair cur proof
  | [], _, _ => rfl
  | sib :: rest, cur, idx => by
    simp only [processProof, List.foldl_cons]
    exact processProof_eq_foldl rest (hashPair cur sib) (idx / 2)

/-- The root of a freshly built tree, as an unconditional description:
`get_root` of `MerkleTree(leaves)` is `some` of the first element of the last
layer whenever that exists. -/
theorem mk_get_root (L : List Bytes) :
    (mkMerkleTree L).get_root = ((buildLayers L).getLastD [])[0]? := by
  unfold mkMerkleTree MerkleTree.get_root
  obtain ⟨l0, ls, hls⟩ : ∃ l0 ls, buildLayers L = l0 :: ls :=
    match hbl : buildLayers L with
    | [] => absurd hbl (buildLayers_ne_nil _)
    | l0 :: ls => ⟨l0, ls, rfl⟩
  rw [hls, List.getLastD_eq_getLast?]
  obtain ⟨y, hy⟩ : ∃ y, (l0 :: ls).getLast? = some y := by
    cases hgl : (l0 :: ls).getLast? with
    | none => simp [List.getLast?_eq_none_iff] at hgl
    | some y => exact ⟨y, rfl⟩
  rw [hy]
  rfl

/-! ## Claim C1: round-trip membership -/

/-- C1: Round-trip membership. For a leaf found in layer 0 at index `i` by
`list.index`, recomputing the root from that leaf by folding the sibling list
returned by `MerkleTree.get_proof` — at each step sorting the current value
and the next sibling ascending by byte value, concatenating, hashing with
SHA3-256 — yields exactly the value returned by `MerkleTree.get_root`:
`verify leaf i (get_proof leaf) root = true`. -/
theorem merkle_roundtrip_membership (L : List Bytes) (leaf : Bytes) (i : Nat) (root : Bytes)
    (hidx : pyIndex leaf L = some i)
    (hroot : (mkMerkleTree L).get_root = some root) :
    verify leaf i ((mkMerkleTree L).get_proof leaf) root = true := by
  have hi : i < L.length := pyIndex_lt_length L leaf i hidx
  have hleaf : L.getD i [] = leaf := pyIndex_getD L leaf i hidx
  obtain ⟨top, htop, hfold⟩ := buildLayers_fold L i hi
  have hroot' : top[0]? = some root := by
    unfold mkMerkleTree MerkleTree.get_root at hroot
    rw [htop] at hroot
    exact hroot
  rw [hfold] at hroot'
  have hr : root = List.foldl hashPair (L.getD i [])
      (proofLoop (buildLayers L).dropLast i) := (Option.some.inj hroot').symm
  have hproof : (mkMerkleTree L).get_proof leaf = proofLoop (buildLayers L).dropLast i := by
    unfold mkMerkleTree MerkleTree.get_proof
    rw [hidx]
  unfold verify
  rw [hproof, processProof_eq_foldl, hr, hleaf]
  simp

/-- Witness for C1 at the single-leaf tree over the leaf `[0]`. -/
theorem merkle_roundtrip_membership_witness :
    pyIndex [0] [[(0 : Nat)]] = some 0 ∧
    (mkMerkleTree [[(0 : Nat)]]).get_root = some [0] ∧
    verify [0] 0 ((mkMerkleTree [[(0 : Nat)]]).get_proof [0]) [0] = true :=
  ⟨rfl, by simp [mkMerkleTree, MerkleTree.get_root, buildLayers],
    merkle_roundtrip_membership [[0]] [0] 0 [0] rfl
      (by simp [mkMerkleTree, MerkleTree.get_root, buildLayers])⟩

/-! ## Claim C2: order insensitivity of pairing -/

/-- `_next_layer` splits at any even boundary. -/
theorem nextLayer_append : ∀ (pre rest : List Bytes), pre.length % 2 = 0 →
    nextLayer (pre ++ rest) = nextLayer pre ++ nextLayer rest
  | [], _, _ => rfl
  | [_], _, h => by simp at h
  | x :: y :: pre, rest, h => by
    have h' : pre.length % 2 = 0 := by
      simp only [List.length_cons] at h
      omega
    simp only [List.cons_append, nextLayer, List.append_eq, nextLayer_append pre rest h']

/-- C2: Order insensitivity of pairing. The parent derived from the complete
pair `(a, b)` placed at any even position of a layer is SHA3-256 of the
concatenation of the pair sorted ascending by byte value, and swapping the two
children of that pair never changes the derived layer. -/
theorem pairing_sort_swap_invariant (a b : Bytes) (pre post : List Bytes)
    (h : pre.length % 2 = 0) :
    (nextLayer (pre ++ a :: b :: post)).getD (pre.length / 2) [] =
      sha3_256 ((sorted2 a b).1 ++ (sorted2 a b).2) ∧
    nextLayer (pre ++ a :: b :: post) = nextLayer (pre ++ b :: a :: post) := by
  constructor
  · rw [nextLayer_append pre (a :: b :: post) h,
      List.getD_append_right _ _ _ _ (by rw [nextLayer_length]; omega)]
    have : pre.length / 2 - (nextLayer pre).length = 0 := by
      rw [nextLayer_length]
      omega
    rw [this]
    rfl
  · rw [nextLayer_append pre (a :: b :: post) h, nextLayer_append pre (b :: a :: post) h]
    simp only [nextLayer, hashPair_comm a b]

/-- Witness for C2 with the pair `([1], [2])` alone in the layer. -/
theorem pairing_sort_swap_invariant_witness :
    ([] : List Bytes).length % 2 = 0 ∧
    ((nextLayer ([] ++ [1] :: [2] :: [])).getD (([] : List Bytes).length / 2) [] =
      sha3_256 ((sorted2 [1] [2]).1 ++ (sorted2 [1] [2]).2) ∧
    nextLayer ([] ++ [1] :: [2] :: []) = nextLayer ([] ++ [2] :: [1] :: [])) :=
  ⟨rfl, pairing_sort_swap_invariant [1] [2] [] [] rfl⟩

/-! ## Claim C6: negative membership -/

/-- C6: Negative membership. For every built tree and every value absent from
the leaf layer, `MerkleTree.get_proof` returns the empty proof — the
`ValueError` of `list.index` is caught and mapped to `[]`, with no partial or
forged proof. -/
theorem get_proof_not_found_empty (L : List Bytes) (leaf : Bytes) (h : leaf ∉ L) :
    (mkMerkleTree L).get_proof leaf = [] := by
  unfold mkMerkleTree MerkleTree.get_proof
  rw [pyIndex_eq_none L leaf h]

/-- Witness for C6: the leaf `[2]` is absent from the tree over `[[1]]`. -/
theorem get_proof_not_found_empty_witness :
    ([2] ∉ [[(1 : Nat)]]) ∧ (mkMerkleTree [[(1 : Nat)]]).get_proof [2] = [] :=
  ⟨by decide, get_proof_not_found_empty [[1]] [2] (by decide)⟩

/-! ## Claim C3: layer-structure invariant -/

theorem buildLayers_getD_zero (L : List Bytes) : (buildLayers L).getD 0 [] = L := by
  rw [buildLayers.eq_def]
  by_cases h : 1 < L.length <;> simp [h]

theorem nextLayer_ne_nil (l : List Bytes) (h : l ≠ []) : nextLayer l ≠ [] := by
  intro hnil
  have hlen := nextLayer_length l
  rw [hnil] at hlen
  simp only [List.length_nil] at hlen
  have : l.length = 0 := by omega
  exact h (List.eq_nil_of_length_eq_zero this)

theorem buildLayers_chain (L : List Bytes) (i : Nat)
    (h : i + 1 < (buildLayers L).length) :
    ((buildLayers L).getD (i + 1) []).length =
      (((buildLayers L).getD i []).length + 1) / 2 := by
  by_cases hl : 1 < L.length
  · rw [buildLayers.eq_def, dif_pos hl] at h ⊢
    cases i with
    | zero =>
      simp only [List.getD_cons_succ, List.getD_cons_zero]
      rw [buildLayers_getD_zero, nextLayer_length]
    | succ k =>
      simp only [List.getD_cons_succ]
      exact buildLayers_chain (nextLayer L) k (by simpa using h)
  · rw [buildLayers.eq_def, dif_neg hl] at h
    simp at h
termination_by L.length
decreasing_by
  rw [nextLayer_length]
  omega

theorem getLastD_irrel {α : Type} (ls : List α) (a b : α) (h : ls ≠ []) :
    ls.getLastD a = ls.getLastD b := by
  cases ls with
  | nil => exact absurd rfl h
  | cons x xs => rfl

theorem buildLayers_getLastD_length (L : List Bytes) (h : L ≠ []) :
    ((buildLayers L).getLastD []).length = 1 := by
  by_cases hl : 1 < L.length
  · rw [buildLayers.eq_def, dif_pos hl, List.getLastD_cons,
      getLastD_irrel _ L [] (buildLayers_ne_nil _)]
    exact buildLayers_getLastD_length (nextLayer L) (nextLayer_ne_nil L h)
  · rw [buildLayers.eq_def, dif_neg hl]
    have : L.length = 1 := by
      cases L with
      | nil => exact absurd rfl h
      | cons x xs =>
        simp only [List.length_cons] at hl ⊢
        omega
    simpa using this
termination_by L.length
decreasing_by
  rw [nextLayer_length]
  omega

theorem getLast?_cons_of_ne_nil {α : Type} (x : α) (xs : List α) (h : xs ≠ []) :
    (x :: xs).getLast? = xs.getLast? := by
  cases xs with
  | nil => exact absurd rfl h
  | cons y ys => rw [List.getLast?_cons_cons]

theorem nextLayer_getLast?_odd : ∀ l : List Bytes, l.length % 2 = 1 →
    (nextLayer l).getLast? = l.getLast?
  | [], h => by simp at h
  | [a], _ => rfl
  | a :: b :: rest, h => by
    have h' : rest.length % 2 = 1 := by
      simp only [List.length_cons] at h
      omega
    have hne : rest ≠ [] := by
      intro hnil
      rw [hnil] at h'
      simp at h'
    simp only [nextLayer]
    rw [getLast?_cons_of_ne_nil _ _ (nextLayer_ne_nil rest hne),
      getLast?_cons_of_ne_nil a (b :: rest) (by simp),
      getLast?_cons_of_ne_nil b rest hne]
    exact nextLayer_getLast?_odd rest h'

theorem buildLayers_map_length_five (L : List Bytes) (h : L.length = 5) :
    (buildLayers L).map List.length = [5, 3, 2, 1] := by
  have h1 : (nextLayer L).length = 3 := by rw [nextLayer_length, h]
  have h2 : (nextLayer (nextLayer L)).length = 2 := by rw [nextLayer_length, h1]
  have h3 : (nextLayer (nextLayer (nextLayer L))).length = 1 := by rw [nextLayer_length, h2]
  rw [buildLayers.eq_def, dif_pos (by omega)]
  rw [buildLayers.eq_def, dif_pos (by omega)]
  rw [buildLayers.eq_def, dif_pos (by omega)]
  rw [buildLayers.eq_def, dif_neg (by omega)]
  simp [h, h1, h2, h3]

/-- C3: Layer-structure invariant. For a non-empty leaf list: layer 0 of the
constructed tree is the input leaf sequence verbatim; every subsequent layer
has length `ceil(prev / 2)`; the final layer has exactly one element; an
odd-length layer's last element is carried into the next layer unchanged; and
five leaves produce layer sizes `5, 3, 2, 1`. -/
theorem layer_structure_invariant (L : List Bytes) (hne : L ≠ []) :
    (mkMerkleTree L).layers.getD 0 [] = L ∧
    (∀ i, i + 1 < (mkMerkleTree L).layers.length →
      ((mkMerkleTree L).layers.getD (i + 1) []).length =
        (((mkMerkleTree L).layers.getD i []).length + 1) / 2) ∧
    (((mkMerkleTree L).layers.getLastD []).length = 1) ∧
    (∀ layer : List Bytes, layer.length % 2 = 1 →
      (nextLayer layer).getLast? = layer.getLast?) ∧
    (L.length = 5 → (mkMerkleTree L).layers.map List.length = [5, 3, 2, 1]) := by
  simp only [mkMerkleTree]
  exact ⟨buildLayers_getD_zero L, buildLayers_chain L,
    buildLayers_getLastD_length L hne, nextLayer_getLast?_odd,
    buildLayers_map_length_five L⟩

/-- Witness for C3 at a five-leaf tree. -/
theorem layer_structure_invariant_witness :
    (([[1], [2], [3], [4], [5]] : List Bytes) ≠ []) ∧
    ((mkMerkleTree [[1], [2], [3], [4], [5]]).layers.getD 0 [] =
        ([[1], [2], [3], [4], [5]] : List Bytes) ∧
      (∀ i, i + 1 < (mkMerkleTree [[1], [2], [3], [4], [5]]).layers.length →
        ((mkMerkleTree [[1], [2], [3], [4], [5]]).layers.getD (i + 1) []).length =
          (((mkMerkleTree [[1], [2], [3], [4], [5]]).layers.getD i []).length + 1) / 2) ∧
      (((mkMerkleTree [[1], [2], [3], [4], [5]]).layers.getLastD []).length = 1) ∧
      (∀ layer : List Bytes, layer.length % 2 = 1 →
        (nextLayer layer).getLast? = layer.getLast?) ∧
      (([[1], [2], [3], [4], [5]] : List Bytes).length = 5 →
        (mkMerkleTree [[1], [2], [3], [4], [5]]).layers.map List.length = [5, 3, 2, 1])) :=
  ⟨by decide, layer_structure_invariant [[1], [2], [3], [4], [5]] (by decide)⟩

/-! ## Claim C5: the empty tree -/

/-- Counterexample to C5: on an empty leaf list the constructor raises
nothing (it builds the single empty layer), and `get_root` does not return
the empty byte value — `layers[-1][0]` raises `IndexError`, modelled `none`. -/
theorem empty_tree_counterexample :
    (mkMerkleTree []).layers = [[]] ∧ (mkMerkleTree []).get_root ≠ some ([] : Bytes) := by
  constructor
  · simp [mkMerkleTree, buildLayers]
  · simp [mkMerkleTree, MerkleTree.get_root, buildLayers]

/-- C5 as amended: building from zero leaves succeeds and yields the single
layer list `[[]]`; `get_root` then fails with an `IndexError` (modelled as
`none`), returning neither an empty byte value nor a root. -/
theorem empty_tree_amended :
    (mkMerkleTree ([] : List Bytes)).get_root = none := by
  simp [mkMerkleTree, MerkleTree.get_root, buildLayers]

/-! ## `_hash_address` and Python `bytes.fromhex` -/

/-- Value of one hexadecimal digit character, `none` otherwise. -/
def hexVal (c : Char) : Option Nat :=
  if '0' ≤ c ∧ c ≤ '9' then some (c.toNat - '0'.toNat)
  else if 'a' ≤ c ∧ c ≤ 'f' then some (c.toNat - 'a'.toNat + 10)
  else if 'A' ≤ c ∧ c ≤ 'F' then some (c.toNat - 'A'.toNat + 10)
  else none

/-- ASCII whitespace, as `bytes.fromhex` skips it between bytes. -/
def isPySpace (c : Char) : Bool :=
  c = ' ' || c = '\t' || c = '\n' || c = '\x0b' || c = '\x0c' || c = '\r'

/-- Python `bytes.fromhex`: skip ASCII whitespace between bytes, read two hex
digits per byte — the low digit must immediately follow the high one — and
fail (`ValueError`, modelled `none`) on anything else. -/
def pyFromHex : List Char → Option Bytes
  | [] => some []
  | c :: cs =>
    if isPySpace c then pyFromHex cs
    else
      match hexVal c, cs with
      | some hi, d :: cs2 =>
        match hexVal d with
        | some lo => (pyFromHex cs2).map fun bs => (16 * hi + lo) :: bs
        | none => none
      | _, _ => none

/-- `address[2:] if address.startswith("0x") else address`, on the character
list of the address string. -/
def cleanAddr : List Char → List Char
  | '0' :: 'x' :: rest => rest
  | s => s

/-- `_hash_address`: strip an optional `0x` marker, decode the rest as hex —
the `ValueError` of `bytes.fromhex` is caught and mapped to `b''` — and hash
the decoded bytes with SHA3-256. -/
def _hash_address (address : String) : Bytes :=
  match pyFromHex (cleanAddr address.data) with
  | none => []
  | some addr_bytes => sha3_256 addr_bytes

/-! ## Claim C4: malformed addresses -/

/-- C4: the code evaluated at the failing input `"0xzz"` — the remainder after
stripping `0x` is not valid hex, and `_hash_address` silently returns the
empty byte string instead of failing with a `MalformedAddress` error. -/
theorem hash_address_malformed_returns_empty :
    _hash_address "0xzz" = [] ∧ _hash_address "zz" = [] := ⟨rfl, rfl⟩

/-! ## Claim C10: the canonicalizer's interface shape -/

/-- C10: `_hash_address` returns the empty byte string exactly when hex
decoding of the prefix-stripped input fails, and otherwise an exact 32-byte
SHA3-256 digest; the empty string and the bare `"0x"` are not malformed —
each yields the SHA3-256 digest of the empty byte sequence. -/
theorem hash_address_shape (s : String) :
    ((_hash_address s = []) ↔ pyFromHex (cleanAddr s.data) = none) ∧
    (∀ bs, pyFromHex (cleanAddr s.data) = some bs →
      _hash_address s = sha3_256 bs ∧ (_hash_address s).length = 32) ∧
    _hash_address "" = sha3_256 [] ∧
    _hash_address "0x" = sha3_256 [] ∧
    (sha3_256 []).length = 32 := by
  refine ⟨?_, ?_, rfl, rfl, sha3_256_length []⟩
  · unfold _hash_address
    cases h : pyFromHex (cleanAddr s.data) with
    | none => simp
    | some bs => simp [sha3_256_ne_nil bs]
  · intro bs h
    unfold _hash_address
    rw [h]
    exact ⟨rfl, sha3_256_length bs⟩

/-- Witness for C10 at the address `"0A"`, which decodes to the byte 10. -/
theorem hash_address_shape_witness :
    pyFromHex (cleanAddr ("0A" : String).data) = some [10] ∧
    (_hash_address "0A" = sha3_256 [10] ∧ (_hash_address "0A").length = 32) :=
  ⟨rfl, (hash_address_shape "0A").2.1 [10] rfl⟩

/-! ## Claim C7: the claim-details index -/

/-- The leaf list the claim-details endpoint builds: hash each target address
and keep the truthy (non-empty) results, in order. -/
def claimLeaves : List String → List Bytes
  | [] => []
  | addr :: rest =>
    if _hash_address addr = [] then claimLeaves rest
    else _hash_address addr :: claimLeaves rest

/-- The index the claim-details endpoint computes: `leaves.index(user_leaf)`,
with `none` for the `ValueError` turned into an HTTP 400. -/
def claimIndex (targets : List String) (user : String) : Option Nat :=
  pyIndex (_hash_address user) (claimLeaves targets)

/-- Counterexample to C7: with the malformed target `"zz"` ahead of `"01"`,
the endpoint's index for the claimer `"01"` is 0, the position in the
filtered leaf list — not 1, the position of that address's leaf in the
original ordered target-address list. -/
theorem claim_index_counterexample :
    claimIndex ["zz", "01"] "01" = some 0 ∧
    pyIndex (_hash_address "01") (["zz", "01"].map _hash_address) = some 1 := by
  have hzz : _hash_address "zz" = [] := rfl
  have h01 : _hash_address "01" = sha3_256 [1] := rfl
  constructor
  · unfold claimIndex
    simp only [claimLeaves, hzz, h01, if_pos rfl, if_neg (sha3_256_ne_nil [1])]
    simp [pyIndex, h01]
  · simp only [List.map_cons, List.map_nil, hzz, h01, pyIndex,
      if_neg (Ne.symm (sha3_256_ne_nil [1])), if_pos rfl]
    rfl

theorem claimLeaves_eq_map (targets : List String)
    (h : ∀ a ∈ targets, _hash_address a ≠ []) :
    claimLeaves targets = targets.map _hash_address := by
  induction targets with
  | nil => rfl
  | cons addr rest ih =>
    have haddr : _hash_address addr ≠ [] := h addr (List.mem_cons_self addr rest)
    have hrest : ∀ a ∈ rest, _hash_address a ≠ [] := fun a ha =>
      h a (List.mem_cons_of_mem addr ha)
    simp only [claimLeaves, if_neg haddr, List.map_cons, ih hrest]

/-- C7 as amended: the endpoint's index is the first-occurrence position of
the claiming address's leaf within the filtered leaf list (targets hashing to
the empty byte string are dropped); when every target address is well-formed
this coincides with the position among the leaves of the original ordered
target-address list. -/
theorem claim_index_amended (targets : List String) (user : String)
    (h : ∀ a ∈ targets, _hash_address a ≠ []) :
    claimIndex targets user = pyIndex (_hash_address user) (claimLeaves targets) ∧
    claimIndex targets user = pyIndex (_hash_address user) (targets.map _hash_address) := by
  refine ⟨rfl, ?_⟩
  unfold claimIndex
  rw [claimLeaves_eq_map targets h]

/-- Witness for C7's amended form at the single well-formed target `"01"`. -/
theorem claim_index_amended_witness :
    (∀ a ∈ ["01"], _hash_address a ≠ []) ∧
    (claimIndex ["01"] "01" = pyIndex (_hash_address "01") (claimLeaves ["01"]) ∧
      claimIndex ["01"] "01" = pyIndex (_hash_address "01") (["01"].map _hash_address)) := by
  have h : ∀ a ∈ ["01"], _hash_address a ≠ [] := by
    intro a ha
    have : a = "01" := List.mem_singleton.mp ha
    rw [this, show _hash_address "01" = sha3_256 [1] from rfl]
    exact sha3_256_ne_nil [1]
  exact ⟨h, claim_index_amended ["01"] "01" h⟩

/-! ## Claim C8: permuting the leaves -/

/-- Roots agree whenever the first derived layers agree on equally long leaf
lists. -/
theorem get_root_congr (L M : List Bytes) (hlen : L.length = M.length)
    (hnext : nextLayer L = nextLayer M) :
    (mkMerkleTree L).get_root = (mkMerkleTree M).get_root := by
  rw [mk_get_root, mk_get_root]
  by_cases h : 1 < L.length
  · rw [buildLayers.eq_def]
    conv_rhs => rw [buildLayers.eq_def]
    rw [dif_pos h, dif_pos (show 1 < M.length by omega)]
    rw [List.getLastD_cons, List.getLastD_cons,
      getLastD_irrel _ L [] (buildLayers_ne_nil _),
      getLastD_irrel _ M [] (buildLayers_ne_nil _), hnext]
  · match L, M, hlen with
    | [], [], _ => rfl
    | [a], [b], _ =>
      have : a = b := by
        have := hnext
        simp only [nextLayer] at this
        exact (List.cons.injEq a [] b []).mp this |>.1
      rw [this]
    | _ :: _ :: _, _, _ => simp at h

/-- The root of a three-leaf tree, written out. -/
theorem get_root_three (x y z : Bytes) :
    (mkMerkleTree [x, y, z]).get_root = some (hashPair (hashPair x y) z) := by
  rw [mk_get_root]
  rw [buildLayers.eq_def, dif_pos (by simp)]
  rw [show nextLayer [x, y, z] = [hashPair x y, z] from rfl]
  rw [buildLayers.eq_def, dif_pos (by simp)]
  rw [show nextLayer [hashPair x y, z] = [hashPair (hashPair x y) z] from rfl]
  rw [buildLayers.eq_def, dif_neg (by simp)]
  rfl

/-- Counterexample to C8: swapping the two leaves of a two-leaf tree is a
non-identity permutation of the input list, yet the sorted-pair rule gives
both orders the same root. -/
theorem root_permutation_counterexample :
    (([List.replicate 32 1, List.replicate 32 2] : List Bytes) ≠
      [List.replicate 32 2, List.replicate 32 1]) ∧
    (mkMerkleTree [List.replicate 32 1, List.replicate 32 2]).get_root =
      (mkMerkleTree [List.replicate 32 2, List.replicate 32 1]).get_root := by
  constructor
  · decide
  · exact get_root_congr _ _ rfl (by simp only [nextLayer, hashPair_comm])

set_option maxRecDepth 100000 in
/-- C8 as amended: permuting the input leaf list need not change the root —
swapping the two children of any complete pair never does — while
permutations that move leaves across pairs can: rotating three concrete
32-byte leaves yields a different root. -/
theorem root_permutation_amended (pre post : List Bytes) (a b : Bytes)
    (h : pre.length % 2 = 0) :
    ((mkMerkleTree (pre ++ a :: b :: post)).get_root =
      (mkMerkleTree (pre ++ b :: a :: post)).get_root) ∧
    (mkMerkleTree [List.replicate 32 1, List.replicate 32 2,
        List.replicate 32 3]).get_root ≠
      (mkMerkleTree [List.replicate 32 2, List.replicate 32 3,
        List.replicate 32 1]).get_root := by
  constructor
  · apply get_root_congr
    · simp
    · rw [nextLayer_append _ _ h, nextLayer_append _ _ h]
      simp only [nextLayer, hashPair_comm a b]
  · rw [get_root_three, get_root_three]
    intro heq
    exact absurd (Option.some.inj heq) (by decide)

/-- Witness for C8's amended form: an empty even prefix around the pair
`([1], [2])`. -/
theorem root_permutation_amended_witness :
    (([] : List Bytes).length % 2 = 0) ∧
    (((mkMerkleTree ([] ++ [1] :: [2] :: [])).get_root =
      (mkMerkleTree ([] ++ [2] :: [1] :: [])).get_root) ∧
    (mkMerkleTree [List.replicate 32 1, List.replicate 32 2,
        List.replicate 32 3]).get_root ≠
      (mkMerkleTree [List.replicate 32 2, List.replicate 32 3,
        List.replicate 32 1]).get_root) :=
  ⟨rfl, root_permutation_amended [] [] [1] [2] rfl⟩

/-! ## Claim C9: the duplicated `MerkleTree` of `src/backend/verify_merkle.py` -/

namespace VerifyMerkle

/-- The pairing rule of the duplicated `_next_layer` in `verify_merkle.py`:
sort the pair by byte representation, concatenate, hash with SHA3-256. -/
def hashPair (x y : Bytes) : Bytes :=
  sha3_256 ((sorted2 x y).1 ++ (sorted2 x y).2)

/-- The duplicated `_next_layer` of `verify_merkle.py`. -/
def nextLayer : List Bytes → List Bytes
  | a :: b :: rest => hashPair a b :: nextLayer rest
  | [a] => [a]
  | [] => []

theorem nextLayer_halves : ∀ l : List Bytes, (nextLayer l).length = (l.length + 1) / 2
  | [] => by simp [nextLayer]
  | [_] => by simp [nextLayer]
  | _ :: _ :: rest => by
    simp only [nextLayer, List.length_cons, nextLayer_halves rest]
    omega

/-- The duplicated layer construction of `verify_merkle.py`'s `__init__`. -/
def buildLayers (layer : List Bytes) : List (List Bytes) :=
  if h : 1 < layer.length then layer :: buildLayers (nextLayer layer) else [layer]
termination_by layer.length
decreasing_by
  rw [nextLayer_halves]
  omega

/-- The duplicated `MerkleTree` state of `verify_merkle.py`. -/
structure MerkleTree where
  leaves : List Bytes
  layers : List (List Bytes)

/-- `verify_merkle.py`'s `MerkleTree(leaves)`. -/
def mkMerkleTree (leaves : List Bytes) : MerkleTree :=
  ⟨leaves, buildLayers leaves⟩

/-- The duplicated `get_root` of `verify_merkle.py`. -/
def MerkleTree.get_root (t : MerkleTree) : Option Bytes :=
  match t.layers.getLast? with
  | none => some []
  | some top => top[0]?

end VerifyMerkle

theorem vm_nextLayer_eq : ∀ l : List Bytes, VerifyMerkle.nextLayer l = nextLayer l
  | [] => rfl
  | [_] => rfl
  | a :: b :: rest => by
    simp only [VerifyMerkle.nextLayer, nextLayer, vm_nextLayer_eq rest]
    rfl

theorem vm_buildLayers_eq (L : List Bytes) :
    VerifyMerkle.buildLayers L = buildLayers L := by
  rw [VerifyMerkle.buildLayers.eq_def, buildLayers.eq_def]
  by_cases h : 1 < L.length
  · rw [dif_pos h, dif_pos h, vm_nextLayer_eq, vm_buildLayers_eq (nextLayer L)]
  · rw [dif_neg h, dif_neg h]
termination_by L.length
decreasing_by
  rw [nextLayer_length]
  omega

/-- C9: One hashing/pairing policy across both call sites. The `MerkleTree`
of the live endpoint module (`main.py`) and the `MerkleTree` of the standalone
verification script (`verify_merkle.py`) are equivalent: for every leaf list,
both produce identical layer sequences and identical roots. -/
theorem merkle_impls_equivalent (L : List Bytes) :
    (VerifyMerkle.mkMerkleTree L).layers = (mkMerkleTree L).layers ∧
    (VerifyMerkle.mkMerkleTree L).get_root = (mkMerkleTree L).get_root := by
  have hb := vm_buildLayers_eq L
  constructor
  · simpa [VerifyMerkle.mkMerkleTree, mkMerkleTree] using hb
  · unfold VerifyMerkle.mkMerkleTree mkMerkleTree
    unfold VerifyMerkle.MerkleTree.get_root MerkleTree.get_root
    rw [hb]

end PDTT
